import Mathlib

/-
Verification of the batch-execution manager and the entity-resolution engine
of the financial-knowledge-graphs repository.

The Python sources are embedded shallowly: pure string manipulation becomes
functions over `List Char`, the JSON values handled by the result loop become
an inductive type `Jv`, the external `json.loads` becomes an explicit
parameter `jl : String → Option Jv`, uncaught Python exceptions become
`Except.error`, and the manifest state mutated by the submitter becomes an
explicit state type with a reachability relation.
-/

namespace FinKG

/-! ### Python string primitives -/

/-- Python str.lower on the ASCII names used throughout the repository. -/
def pyLower (s : String) : String := String.mk (s.data.map Char.toLower)

/-- Characters of the regex class [\s] (ASCII whitespace, as used by re and str.split). -/
def isPySpace (c : Char) : Bool :=
  c == ' ' || c == '\t' || c == '\n' || c == '\r' || c == '\x0b' || c == '\x0c'

/-- Characters of the regex class [\w]: alphanumerics and the underscore. -/
def isWordChar (c : Char) : Bool := c.isAlphanum || c == '_'

/-- Does the pattern occur at the head of the character list. -/
def leadsWith : List Char → List Char → Bool
  | [], _ => true
  | _ :: _, [] => false
  | p :: ps, c :: cs => p == c && leadsWith ps cs

/-- Contiguous substring test, modelling the Python `in` operator on strings. -/
def occursIn (pat : List Char) : List Char → Bool
  | [] => leadsWith pat []
  | c :: cs => leadsWith pat (c :: cs) || occursIn pat cs

/-- Suffix test on character lists. -/
def trailsWith (pat cs : List Char) : Bool := leadsWith pat.reverse cs.reverse

/-- Python str.split() with no argument: split on whitespace runs, dropping empties. -/
def pySplitWs (cs : List Char) : List (List Char) :=
  let p := cs.foldr
    (fun c q => if isPySpace c then (([] : List Char), if q.1.isEmpty then q.2 else q.1 :: q.2)
                else (c :: q.1, q.2))
    (([] : List Char), ([] : List (List Char)))
  if p.1.isEmpty then p.2 else p.1 :: p.2

/-- Fuel-driven worker for Python str.split(sep) with a non-empty separator. -/
def splitFuel (sep : List Char) : Nat → List Char → List Char → List (List Char)
  | 0, cur, cs => [cur.reverse ++ cs]
  | _ + 1, cur, [] => [cur.reverse]
  | n + 1, cur, c :: rest =>
    if leadsWith sep (c :: rest) then
      cur.reverse :: splitFuel sep n [] ((c :: rest).drop sep.length)
    else
      splitFuel sep n (c :: cur) rest

/-- Python str.split(sep) for a non-empty separator: leftmost non-overlapping splits,
keeping empty pieces. -/
def pySplit (s sep : String) : List String :=
  (splitFuel sep.data (s.data.length + 1) [] s.data).map String.mk

/-- Fuel-driven worker for Python str.replace with a non-empty pattern. -/
def replaceFuel (old new : List Char) : Nat → List Char → List Char
  | 0, cs => cs
  | _ + 1, [] => []
  | n + 1, c :: rest =>
    if leadsWith old (c :: rest) then new ++ replaceFuel old new n ((c :: rest).drop old.length)
    else c :: replaceFuel old new n rest

/-- Python str.replace: every leftmost non-overlapping occurrence is replaced. -/
def pyReplace (s old new : String) : String :=
  String.mk (replaceFuel old.data new.data (s.data.length + 1) s.data)

/-- Python str.strip() with no argument: leading and trailing whitespace removed. -/
def pyStrip (s : String) : String :=
  String.mk (((s.data.dropWhile isPySpace).reverse.dropWhile isPySpace).reverse)

/-- Python substring membership test `sub in s`. -/
def pyContains (s sub : String) : Bool := occursIn sub.data s.data

/-! ### Entity-name normalization (neo4j_handler.py lines 36-68) -/

/-- The five words of the trailing-suffix regex in neo4j_handler.py line 60. -/
def regexSufWords : List (List Char) :=
  ["inc", "corp", "co", "ltd", "llc"].map String.data

/-- Drops the trailing run of whitespace/comma characters, the [\s,]+ part of
the regex at neo4j_handler.py line 60. -/
def dropTrailingSep (cs : List Char) : List Char :=
  (cs.reverse.dropWhile (fun c => isPySpace c || c == ',')).reverse

/-- Tries to strip one trailing suffix word w, optionally followed by a period and
necessarily preceded by at least one whitespace or comma character, exactly as one
alternative of the regex at neo4j_handler.py line 60 matches at the end of the name. -/
def stripWord (cs w : List Char) : Option (List Char) :=
  let core : Option (List Char) :=
    if trailsWith (w ++ ['.']) cs then some (cs.take (cs.length - (w.length + 1)))
    else if trailsWith w cs then some (cs.take (cs.length - w.length))
    else none
  match core with
  | none => none
  | some kept =>
    match kept.getLast? with
    | some d => if isPySpace d || d == ',' then some (dropTrailingSep kept) else none
    | none => none

/-- The substitution re.sub of neo4j_handler.py line 60: removes one trailing
legal-entity suffix together with the separator run before it, when present. -/
def pyStripSuffixRegex (cs : List Char) : List Char :=
  match (regexSufWords.filterMap (fun w => stripWord cs w)).head? with
  | some r => r
  | none => cs

/-- The common_suffixes list of neo4j_handler.py lines 54-57, as character lists. -/
def commonSuffixes : List (List Char) :=
  ["inc", "incorporated", "corp", "corporation", "llc", "ltd", "limited",
   "company", "co", "group", "holdings", "plc", "ag", "gmbh", "sa", "nv", "bv"].map String.data

/-- Python " ".join on word lists. -/
def joinWords (ws : List (List Char)) : String :=
  String.mk (List.intercalate [' '] ws)

/-- Embeds Neo4jHandler._normalize_entity_name (neo4j_handler.py lines 36-68):
lowercase, regex strip of one trailing dotted suffix, non-word characters to
spaces, then every token that is a common suffix or has length at most one is
dropped and the rest are rejoined with single spaces. -/
def normalizeEntityName (s : String) : String :=
  if s = "" then ""
  else
    let cs0 := (pyLower s).data
    let cs1 := pyStripSuffixRegex cs0
    let cs2 := cs1.map (fun c => if isWordChar c || isPySpace c then c else ' ')
    let ws := pySplitWs cs2
    let kept := ws.filter (fun w => !(commonSuffixes.contains w) && decide (w.length > 1))
    joinWords kept

/-- The thirteen suffixes listed by the specification sentence for normalization. -/
def specSuffixes : List (List Char) :=
  ["inc", "corp", "ltd", "llc", "co", "group", "holdings", "plc", "ag", "gmbh",
   "sa", "nv", "bv"].map String.data

/-- Drops trailing comma and period characters from a token. -/
def dropTrailingPunct (cs : List Char) : List Char :=
  (cs.reverse.dropWhile (fun c => c == ',' || c == '.')).reverse

/-- Reference normalization following the words of the specification and of claim C4:
lowercase; strip a legal-entity suffix from the fixed thirteen-word list only when it
is the trailing token, with or without an attached comma/period; replace every
non-alphanumeric character by a space; drop tokens of length at most one; rejoin. -/
def normalizeSpecC4 (s : String) : String :=
  let cs := (pyLower s).data
  let toks := pySplitWs cs
  let toks1 :=
    match toks.getLast? with
    | some t => if specSuffixes.contains (dropTrailingPunct t) then toks.dropLast else toks
    | none => toks
  let cs1 := (joinWords toks1).data
  let cs2 := cs1.map (fun c => if c.isAlphanum then c else ' ')
  let ws := pySplitWs cs2
  joinWords (ws.filter (fun w => decide (w.length > 1)))

/-- The amended reference normalization: same lowercase pass and trailing-regex
pre-pass restricted to the five dotted suffix words, every character that is neither
a word character (alphanumeric or underscore) nor whitespace replaced by a space, and
then every token that is short (length at most one) or belongs to the seventeen-word
legal-entity list dropped wherever it occurs, not only at the end. -/
def normalizeAmended (s : String) : String :=
  if s = "" then ""
  else
    let cs0 := (pyLower s).data
    let cs1 := pyStripSuffixRegex cs0
    let cs2 := cs1.map (fun c => if !(isWordChar c) && !(isPySpace c) then ' ' else c)
    let ws := pySplitWs cs2
    let kept := (ws.filter (fun w => decide (w.length > 1))).filter
      (fun w => !(commonSuffixes.contains w))
    joinWords kept

/-! ### Jaccard similarity and entity matching (neo4j_handler.py lines 70-159) -/

/-- Python set(str.split()) of a name: the distinct words, first occurrences kept. -/
def wordSet (s : String) : List (List Char) := (pySplitWs s.data).dedup

/-- Embeds Neo4jHandler._calculate_similarity (neo4j_handler.py lines 136-159):
Jaccard similarity of the word sets, as an exact rational. -/
def calcSimilarity (s1 s2 : String) : ℚ :=
  let a := wordSet s1
  let b := wordSet s2
  if a.isEmpty || b.isEmpty then 0
  else
    let inter := (a.filter (fun w => b.contains w)).length
    let uni := (a ++ b).dedup.length
    if uni > 0 then (inter : ℚ) / (uni : ℚ) else 0

/-- A stored entity row as returned by the Cypher queries of find_matching_entity:
its id, raw name and type, in database order. -/
structure Entity where
  id : String
  name : String
  ty : String
deriving DecidableEq

/-- The candidate-acceptance test of neo4j_handler.py lines 123-124: one normalized
name occurs inside the other and the contained one is longer than three characters.
The claim repeats the same condition, so both embeddings share it. -/
def containOK (nn cn : String) : Bool :=
  (occursIn nn.data cn.data && decide (nn.length > 3))
    || (occursIn cn.data nn.data && decide (cn.length > 3))

/-- The for-loop of neo4j_handler.py lines 118-129 over the same-type candidates,
carrying the (best_match_id, best_similarity) accumulator and updating it only on a
strict similarity improvement. -/
def fuzzyScan (nn : String) : List Entity → Option String × ℚ → Option String × ℚ
  | [], acc => acc
  | e :: rest, acc =>
    let cn := normalizeEntityName e.name
    if containOK nn cn then
      let sim := calcSimilarity nn cn
      if acc.2 < sim then fuzzyScan nn rest (some e.id, sim) else fuzzyScan nn rest acc
    else fuzzyScan nn rest acc

/-- Embeds Neo4jHandler.find_matching_entity (neo4j_handler.py lines 70-134): empty
names short-circuit, an exact raw (name, type) row wins immediately, otherwise the
fuzzy scan runs only for normalized names longer than two characters and its best
candidate is returned only when its id is truthy and the similarity exceeds 0.5. -/
def findMatchingEntity (db : List Entity) (name ty : String) : Option String :=
  if name = "" then none
  else
    match db.find? (fun e => e.name == name && e.ty == ty) with
    | some e => some e.id
    | none =>
      if (normalizeEntityName name).length > 2 then
        match fuzzyScan (normalizeEntityName name)
            (db.filter (fun e => e.ty == ty)) (none, 0) with
        | (some i, best) => if i ≠ "" ∧ (1 : ℚ)/2 < best then some i else none
        | (none, _) => none
      else none

/-- Scores of the containment-passing candidates, in database order. -/
def scoredOf (nn : String) (cands : List Entity) : List (String × ℚ) :=
  (cands.filter (fun e => containOK nn (normalizeEntityName e.name))).map
    (fun e => (e.id, calcSimilarity nn (normalizeEntityName e.name)))

/-- Maximum of the scores of a scored list, starting from a floor. -/
def maxFold : List (String × ℚ) → ℚ → ℚ
  | [], s => s
  | p :: rest, s => maxFold rest (max s p.2)

/-- The strict-improvement scan on an already scored list. -/
def runBest : List (String × ℚ) → Option String × ℚ → Option String × ℚ
  | [], acc => acc
  | p :: rest, acc =>
    if acc.2 < p.2 then runBest rest (some p.1, p.2) else runBest rest acc

/-- Reference matching decision following the words of claim C3: exact raw
(name, type) match first; otherwise, for normalized names longer than two
characters, the same-type containment candidate with the highest Jaccard
similarity, accepted only when that best similarity strictly exceeds one half. -/
def specFindMatch (db : List Entity) (name ty : String) : Option String :=
  match db.find? (fun e => e.name == name && e.ty == ty) with
  | some e => some e.id
  | none =>
    if (normalizeEntityName name).length > 2 then
      if (1 : ℚ)/2 < maxFold (scoredOf (normalizeEntityName name)
          (db.filter (fun e => e.ty == ty))) 0 then
        ((scoredOf (normalizeEntityName name) (db.filter (fun e => e.ty == ty))).find?
          (fun p => decide (p.2 = maxFold (scoredOf (normalizeEntityName name)
            (db.filter (fun e => e.ty == ty))) 0))).map Prod.fst
      else none
    else none

/-! ### JSON values and the batch result loop
(openai_batch_processor.py lines 383-423 and batch_utils.py lines 343-389; the two
loops are line-for-line identical, so one embedding covers both) -/

/-- JSON values, the results of json.loads. -/
inductive Jv where
  | null : Jv
  | jbool : Bool → Jv
  | jnum : Int → Jv
  | jstr : String → Jv
  | jarr : List Jv → Jv
  | jobj : List (String × Jv) → Jv

/-- Python truthiness of a JSON value. -/
def pyTruthy : Jv → Bool
  | Jv.null => false
  | Jv.jbool b => b
  | Jv.jnum n => decide (n ≠ 0)
  | Jv.jstr s => decide (s ≠ "")
  | Jv.jarr l => !l.isEmpty
  | Jv.jobj l => !l.isEmpty

/-- Python dict.get with default None, on the key-value list of a JSON object. -/
def objGet (kvs : List (String × Jv)) (k : String) : Option Jv :=
  (kvs.find? (fun p => p.1 == k)).map (fun p => p.2)

/-- Evaluates result.get("custom_id"): raises (error) when the parsed line is not a
JSON object, as the Python attribute access would. -/
def lineCustomId : Jv → Except Unit (Option Jv)
  | Jv.jobj kvs => Except.ok (objGet kvs "custom_id")
  | _ => Except.error ()

/-- Evaluates the content extraction of the result loop: the guarded chain
result.get("response") / ["response"].get("choices") / choices[0].get("message", ...)
.get("content", ""), mirroring Python truthiness, attribute and subscript behaviour;
an error models an exception that the loop does not catch. -/
def rawContent : Jv → Except Unit Jv
  | Jv.jobj kvs =>
    match objGet kvs "response" with
    | none => Except.ok (Jv.jstr "")
    | some r =>
      if !(pyTruthy r) then Except.ok (Jv.jstr "")
      else
        match r with
        | Jv.jobj rkvs =>
          match objGet rkvs "choices" with
          | none => Except.ok (Jv.jstr "")
          | some ch =>
            if !(pyTruthy ch) then Except.ok (Jv.jstr "")
            else
              match ch with
              | Jv.jarr (c0 :: _) =>
                match c0 with
                | Jv.jobj ckvs =>
                  match (objGet ckvs "message").getD (Jv.jobj []) with
                  | Jv.jobj mkvs => Except.ok ((objGet mkvs "content").getD (Jv.jstr ""))
                  | _ => Except.error ()
                | _ => Except.error ()
              | _ => Except.error ()
        | _ => Except.error ()
  | _ => Except.error ()

/-- File name of a per-item result: "result_" plus custom_id.replace("item_", "")
plus ".json" (batch_utils.py lines 361-363); str.replace removes every occurrence of
"item_", not only a leading one. -/
def resultFileName (s : String) : String := "result_" ++ pyReplace s "item_" "" ++ ".json"

/-- The guard of the fenced-block branch: "```json" occurs in the content and "```"
occurs in what follows its first occurrence. -/
def fencedPresent (content : String) : Bool :=
  pyContains content "```json" && pyContains ((pySplit content "```json").getD 1 "") "```"

/-- The extracted fenced payload content.split("```json")[1].split("```")[0].strip(). -/
def fencedStr (content : String) : String :=
  pyStrip (((pySplit ((pySplit content "```json").getD 1 "") "```").getD 0 ""))

/-- The string actually handed to json.loads by the content-parsing step. -/
def selectedJsonString (content : String) : String :=
  if fencedPresent content then fencedStr content else pyStrip content

/-- The content-parsing step of the result loop (openai_batch_processor.py lines
405-413): parse the fenced payload when present, else the stripped whole string, and
wrap as a raw_output object when json.loads raises JSONDecodeError. The external
json.loads is the parameter jl. -/
def parsedContent (jl : String → Option Jv) (content : String) : Jv :=
  if fencedPresent content then
    match jl (fencedStr content) with
    | some v => v
    | none => Jv.jobj [("raw_output", Jv.jstr content)]
  else
    match jl (pyStrip content) with
    | some v => v
    | none => Jv.jobj [("raw_output", Jv.jstr content)]

/-- One iteration of the result loop for an already json-parsed line: custom_id and
content extraction, the skip of unknown custom_ids, and the per-item write
(ok (some (item_id, file, content))); ok none is a skipped line and error an
exception reaching the whole-loop handler. -/
def processLine (jl : String → Option Jv) (keys : List String) (v : Jv) :
    Except Unit (Option (String × String × Jv)) :=
  match lineCustomId v with
  | Except.error _ => Except.error ()
  | Except.ok cid =>
    match rawContent v with
    | Except.error _ => Except.error ()
    | Except.ok rawc =>
      match cid with
      | some (Jv.jstr s) =>
        if s ∈ keys then
          match rawc with
          | Jv.jstr content => Except.ok (some (s, resultFileName s, parsedContent jl content))
          | _ => Except.error ()
        else Except.ok none
      | _ => Except.ok none

/-- One line of the result file: none when json.loads raises on the line or the body
raises, some none when the line is skipped, some (some w) when a file is written. -/
def lineStep (jl : String → Option Jv) (keys : List String) (ln : String) :
    Option (Option (String × String × Jv)) :=
  match jl ln with
  | none => none
  | some v =>
    match processLine jl keys v with
    | Except.error _ => none
    | Except.ok r => some r

/-- The write produced by a line, when any. -/
def lineWrite (jl : String → Option Jv) (keys : List String) (ln : String) :
    Option (String × Jv) :=
  match lineStep jl keys ln with
  | some (some (_, f, c)) => some (f, c)
  | _ => none

/-- The whole result loop over the lines of the output file: first component the
save_json writes performed in order, second component some results on normal
completion and none when an exception aborted the loop. -/
def processLinesAux (jl : String → Option Jv) (keys : List String) :
    List String → List (String × Jv) × Option (List (String × String))
  | [] => ([], some [])
  | ln :: rest =>
    match lineStep jl keys ln with
    | none => ([], none)
    | some none => processLinesAux jl keys rest
    | some (some (cid, fname, content)) =>
      let r := processLinesAux jl keys rest
      ((fname, content) :: r.1, r.2.map (fun l => (cid, fname) :: l))

/-- Embeds process_batch_results (batch_utils.py lines 328-389): the performed writes
together with the returned results list, which collapses to [] when the whole-loop
except handler fires. -/
def processBatchResults (jl : String → Option Jv) (lines : List String)
    (keys : List String) : List (String × Jv) × List (String × String) :=
  let r := processLinesAux jl keys lines
  (r.1, r.2.getD [])

/-- Final content of a written file after a sequence of writes: the last write wins. -/
def lastWrite (wr : List (String × Jv)) (name : String) : Option Jv :=
  (wr.reverse.find? (fun p => p.1 == name)).map (fun p => p.2)

/-! ### Concrete json.loads tables for counterexamples and witnesses -/

/-- A well-formed output line with custom_id "a" and model content "hello". -/
def goodLine : String :=
  "\x7b\"custom_id\": \"a\", \"response\": \x7b\"choices\": [\x7b\"message\": \x7b\"content\": \"hello\"\x7d\x7d]\x7d\x7d"

/-- The JSON value json.loads produces for goodLine. -/
def goodLineVal : Jv :=
  Jv.jobj [("custom_id", Jv.jstr "a"),
           ("response", Jv.jobj [("choices",
              Jv.jarr [Jv.jobj [("message", Jv.jobj [("content", Jv.jstr "hello")])]])])]

/-- Models json.loads on the inputs appearing in the C6 scenario: it parses goodLine
to its object and fails on every other string, in particular on the malformed line
"not json" and on the non-JSON model content "hello". -/
def jl0 : String → Option Jv := fun s => if s = goodLine then some goodLineVal else none

/-- A well-formed output line with custom_id "x_item_7" and model content "one". -/
def lineX7A : String :=
  "\x7b\"custom_id\": \"x_item_7\", \"response\": \x7b\"choices\": [\x7b\"message\": \x7b\"content\": \"one\"\x7d\x7d]\x7d\x7d"

/-- The JSON value json.loads produces for lineX7A. -/
def lineX7AVal : Jv :=
  Jv.jobj [("custom_id", Jv.jstr "x_item_7"),
           ("response", Jv.jobj [("choices",
              Jv.jarr [Jv.jobj [("message", Jv.jobj [("content", Jv.jstr "one")])]])])]

/-- A well-formed output line with custom_id "x_7" and model content "two". -/
def lineX7B : String :=
  "\x7b\"custom_id\": \"x_7\", \"response\": \x7b\"choices\": [\x7b\"message\": \x7b\"content\": \"two\"\x7d\x7d]\x7d\x7d"

/-- The JSON value json.loads produces for lineX7B. -/
def lineX7BVal : Jv :=
  Jv.jobj [("custom_id", Jv.jstr "x_7"),
           ("response", Jv.jobj [("choices",
              Jv.jarr [Jv.jobj [("message", Jv.jobj [("content", Jv.jstr "two")])]])])]

/-- Models json.loads on the inputs of the C10 scenario: the two well-formed lines
parse to their objects and every other string, in particular the contents "one" and
"two", fails to parse. -/
def jl10 : String → Option Jv :=
  fun s => if s = lineX7A then some lineX7AVal else if s = lineX7B then some lineX7BVal else none


/-! ### Manifest store and batch submission state (batch_utils.py, openai_batch_processor.py) -/

/-- The append-if-absent union of update_execution_metadata (batch_utils.py lines
423-430): each id is appended to the processed list only when not already present. -/
def registerItems (p ids : List String) : List String :=
  ids.foldl (fun acc i => if i ∈ acc then acc else acc ++ [i]) p

/-- Keys of the original_texts dict built from a list of item ids: first-occurrence
order, later duplicates collapse onto the existing key. -/
def dedupKeys (ids : List String) : List String := registerItems [] ids

/-- Manifest state of one execution: the processed_item_ids list of
execution_info.json and, per batch in creation order, the key set of its
original_texts mapping. -/
structure ExecState where
  processed : List String
  batches : List (List String)

/-- Modelled from the spec: the execution-directory variant of submit_batch that
runners/run_llm_task.py line 83 invokes with execution_dir is not under src (the
src version takes parent_batch_dir instead), so the glue is taken from spec section
4.2; the parts that exist under src are embedded directly: the size cap and the
dedup filter are openai_batch_processor.py lines 72-107 (cap first, then filter,
guarded by Python truthiness of processed_ids and item_ids, with the skipped return
on an emptied list), and the registration union is
batch_utils.update_execution_metadata. One call appends at most one batch whose
original_texts keys are the filtered ids. -/
def submitStep (bs : Nat) (s : ExecState) (itemIds : List String) : ExecState :=
  let capped := if itemIds.length > bs then itemIds.take bs else itemIds
  let filtered :=
    if s.processed ≠ [] ∧ capped ≠ [] then capped.filter (fun i => decide (i ∉ s.processed))
    else capped
  if filtered = [] then s
  else { processed := registerItems s.processed filtered,
         batches := s.batches ++ [dedupKeys filtered] }

/-- Executions reachable from the freshly created manifest (create_next_execution_dir
initializes processed_item_ids to the empty list and batches to none) by any
sequence of submissions. -/
inductive Reachable : ExecState → Prop where
  | init : Reachable ⟨[], []⟩
  | step (bs : Nat) (itemIds : List String) (s : ExecState) :
      Reachable s → Reachable (submitStep bs s itemIds)

/-! ### Retrieval (run_retrieve_batch.py lines 56-137, spec section 4.4) -/

/-- Externally visible effects of a retrieval call. -/
inductive RetEffect where
  | download : String → RetEffect
  | writeFile : String → RetEffect

/-- Number of artifact downloads among the effects. -/
def countDownloads (l : List RetEffect) : Nat :=
  l.countP (fun e => match e with | RetEffect.download _ => true | _ => false)

/-- The metadata.json fields of one batch that retrieval consults. -/
structure BatchM where
  batchId : String
  status : String
  retrieved : Bool

/-- Modelled from the spec: retrieve_batch_items is invoked at
run_retrieve_batch.py line 95 but its definition is nowhere under src; spec section
4.4 gives its algorithm: guard on retrieved (already_retrieved, nothing else), guard
on a not-completed status (return that status, no download), otherwise download the
artifact once, write one file per item and persist retrieved = true. The per-item
file names are abstracted as the parameter outWrites. -/
def retrieveBatchItems (m : BatchM) (outWrites : List String) :
    String × List RetEffect × BatchM :=
  if m.retrieved then ("already_retrieved", [], m)
  else if m.status ≠ "completed" then (m.status, [], m)
  else ("completed", RetEffect.download m.batchId :: outWrites.map RetEffect.writeFile,
        { m with retrieved := true })

/-- Per-batch handling of retrieve_execution_batches (run_retrieve_batch.py lines
81-95): the metadata retrieved flag short-circuits to already_retrieved before any
processor call; otherwise the retrieval routine runs. -/
def processExecutionBatch (m : BatchM) (outWrites : List String) :
    String × List RetEffect × BatchM :=
  if m.retrieved then ("already_retrieved", [], m)
  else retrieveBatchItems m outWrites

/-! ### The submission slice of submit_batch (openai_batch_processor.py lines 63-107) -/

/-- Outcome of one submit_batch call: the failed return on empty input, the skipped
return when filtering empties the list, or one submitted batch with its ids and
texts. -/
inductive SubmitOutcome where
  | failed : SubmitOutcome
  | skipped : SubmitOutcome
  | submitted : List String → List String → SubmitOutcome
deriving DecidableEq

/-- Embeds the input handling of submit_batch (openai_batch_processor.py lines
63-107) for a call with custom item ids: empty texts return failed; the size cap of
lines 72-78 truncates texts and item_ids to the first batch_size entries before any
deduplication; the filter of lines 85-107 then drops the ids already processed
(only when both processed_ids and item_ids are truthy) and returns skipped when
nothing remains; otherwise the one remaining batch is submitted, with no chunking
loop. -/
def submitBatchSlice (texts ids : List String) (bs : Nat) (processed : List String) :
    SubmitOutcome :=
  if texts = [] then SubmitOutcome.failed
  else
    let tt := if texts.length > bs then texts.take bs else texts
    let ii := if texts.length > bs then ids.take bs else ids
    if processed ≠ [] ∧ ii ≠ [] then
      let keep := (ii.zip tt).filter (fun p => decide (p.1 ∉ processed))
      if keep = [] then SubmitOutcome.skipped
      else SubmitOutcome.submitted (keep.map (fun p => p.1)) (keep.map (fun p => p.2))
    else SubmitOutcome.submitted ii tt

/-! ### Batch numbering (batch_utils.create_next_batch_dir, lines 169-199) -/

/-- Value of a non-empty digit string. -/
def digitsVal (cs : List Char) : Nat := cs.foldl (fun n c => n * 10 + (c.toNat - 48)) 0

/-- The number n of a directory name fully matching the regex batch_(\d+)$ of
batch_utils.py line 188 (the names reaching the regex already passed the
startswith("batch_") filter of line 180, which the full match subsumes). -/
def parseBatchNum (s : String) : Option Nat :=
  let cs := s.data
  if cs.take 6 = "batch_".data then
    let rest := cs.drop 6
    if rest = [] then none
    else if rest.all (fun c => c.isDigit) then some (digitsVal rest) else none
  else none

/-- Embeds create_next_batch_dir (batch_utils.py lines 169-199) on the list of
subdirectory names of the execution directory: max of the parsed numbers plus one,
or batch_1 when no name parses. -/
def createNextBatchDir (dirs : List String) : String :=
  let nums := dirs.filterMap parseBatchNum
  match nums with
  | [] => "batch_1"
  | _ => "batch_" ++ toString (nums.foldl max 0 + 1)

/-! ### Processed-id lookup (batch_utils.get_processed_item_ids, lines 262-326) -/

/-- One batch subdirectory as the scan sees it: its name and, when metadata.json is
present and readable, the key list of its original_texts mapping (absent key
defaulting to the empty dict). -/
structure BatchDirM where
  name : String
  origKeys : Option (List String)

/-- One execution directory: the manifest value (outer none when
execution_info.json is missing or unreadable, some none when it parses without a
processed_item_ids key, some (some l) when the key holds l) and the entries of the
directory listing. -/
structure ExecDirM where
  manifest : Option (Option (List String))
  batchDirs : List BatchDirM

/-- Embeds get_processed_item_ids (batch_utils.py lines 262-326): the manifest set
when the key is present, otherwise the union of original_texts keys accumulated
over the batch_ subdirectories, skipping those without readable metadata. -/
def getProcessedItemIds (d : ExecDirM) : Finset String :=
  match d.manifest with
  | some (some l) => l.toFinset
  | _ =>
    (d.batchDirs.filter (fun b => leadsWith "batch_".data b.name.data)).foldl
      (fun acc b =>
        match b.origKeys with
        | some ks => acc ∪ ks.toFinset
        | none => acc) ∅

/-- The degraded path as the claim words it: the union of the original_texts key
sets over all batch_ subdirectory metadata files. -/
def specScanUnion (d : ExecDirM) : Finset String :=
  ((d.batchDirs.filter (fun b => leadsWith "batch_".data b.name.data)).filterMap
    (fun b => b.origKeys)).foldr (fun ks acc => ks.toFinset ∪ acc) ∅


/-- A consistent execution directory used as witness input: the manifest records
exactly the ids stored across the batch item mappings. -/
def execW : ExecDirM :=
  ⟨some (some ["a", "b"]),
   [⟨"batch_1", some ["a"]⟩, ⟨"batch_2", some ["b"]⟩, ⟨"other", some ["z"]⟩]⟩

/-! ## Theorems -/

/-- Pointwise agreement of the two phrasings of the character replacement pass. -/
theorem replaceChar_eq (c : Char) :
    (if isWordChar c || isPySpace c then c else ' ') =
    (if !(isWordChar c) && !(isPySpace c) then ' ' else c) := by
  cases hw : isWordChar c <;> cases hs : isPySpace c <;> simp [hw, hs]

/-- The single keep-filter of the code equals the two-stage filter of the amended
description. -/
theorem filterKeep_eq (ws : List (List Char)) :
    ws.filter (fun w => !(commonSuffixes.contains w) && decide (w.length > 1)) =
    (ws.filter (fun w => decide (w.length > 1))).filter
      (fun w => !(commonSuffixes.contains w)) := by
  rw [List.filter_filter]

/-- C4 (amended): the normalization of the code lowercases, applies the trailing
regex pre-pass for the five dotted suffixes, maps non-word characters (keeping the
underscore) to spaces, and then drops every token that is short or belongs to the
seventeen-word legal-entity list wherever it occurs; in particular
normalize("Acme Corp.") and normalize("ACME") both give "acme". -/
theorem c4_normalization_amended :
    (∀ s : String, normalizeEntityName s = normalizeAmended s) ∧
    normalizeEntityName "Acme Corp." = "acme" ∧ normalizeEntityName "ACME" = "acme" := by
  refine ⟨fun s => ?_, by decide, by decide⟩
  by_cases h : s = ""
  · simp [normalizeEntityName, normalizeAmended, h]
  · simp only [normalizeEntityName, normalizeAmended, if_neg h]
    rw [show (fun c => if isWordChar c || isPySpace c then c else ' ')
          = (fun c => if !(isWordChar c) && !(isPySpace c) then ' ' else c)
        from funext replaceChar_eq]
    exact congrArg joinWords (filterKeep_eq _)

/-- C4 (counterexample): the claim that code normalization equals the trailing-only
reference algorithm fails at "Group One", where the code drops the non-trailing
token "group" while the reference keeps it. -/
theorem c4_counterexample :
    normalizeEntityName "Group One" = "one" ∧
    normalizeSpecC4 "Group One" = "group one" ∧
    normalizeEntityName "Group One" ≠ normalizeSpecC4 "Group One" :=
  ⟨by decide, by decide, by decide⟩

/-- C10: the per-item result file name removes every occurrence of "item_" from the
custom id, so the distinct ids "x_item_7" and "x_7" collide on result_x_7.json and
the second write overwrites the first. -/
theorem c10_result_filename_collision :
    resultFileName "x_item_7" = "result_x_7.json" ∧
    resultFileName "x_7" = "result_x_7.json" ∧
    ("x_item_7" : String) ≠ "x_7" ∧
    resultFileName "item_item_9" = "result_9.json" ∧
    (processBatchResults jl10 [lineX7A, lineX7B] ["x_item_7", "x_7"]).1 =
      [("result_x_7.json", Jv.jobj [("raw_output", Jv.jstr "one")]),
       ("result_x_7.json", Jv.jobj [("raw_output", Jv.jstr "two")])] ∧
    lastWrite (processBatchResults jl10 [lineX7A, lineX7B] ["x_item_7", "x_7"]).1
        "result_x_7.json" = some (Jv.jobj [("raw_output", Jv.jstr "two")]) :=
  ⟨by decide, by decide, by decide, by decide, rfl, rfl⟩

/-- Write effects contain no download. -/
theorem countDownloads_writes (w : List String) :
    countDownloads (w.map RetEffect.writeFile) = 0 := by
  simp [countDownloads, List.countP_eq_zero]

/-- C2: a batch whose metadata has retrieved = true is handled as a no-op returning
already_retrieved with no download and no file write; and across two successive
invocations at most one download happens, the second invocation after a completed
retrieval being the already_retrieved no-op. -/
theorem c2_retrieval_idempotent (m : BatchM) (w1 w2 : List String) :
    (m.retrieved = true → processExecutionBatch m w1 = ("already_retrieved", [], m)) ∧
    countDownloads ((processExecutionBatch m w1).2.1
        ++ (processExecutionBatch (processExecutionBatch m w1).2.2 w2).2.1) ≤ 1 ∧
    ((processExecutionBatch m w1).1 = "completed" →
      processExecutionBatch (processExecutionBatch m w1).2.2 w2 =
        ("already_retrieved", [], (processExecutionBatch m w1).2.2)) := by
  obtain ⟨bid, st, r⟩ := m
  cases r with
  | true =>
    refine ⟨fun _ => rfl, ?_, fun h => ?_⟩
    · simp [processExecutionBatch, countDownloads]
    · simp [processExecutionBatch] at h
  | false =>
    by_cases hst : st = "completed"
    · subst hst
      refine ⟨fun h => by simp at h, ?_, fun _ => ?_⟩
      · have h0 := countDownloads_writes w1
        simp only [countDownloads] at h0
        simp [processExecutionBatch, retrieveBatchItems, countDownloads,
          List.countP_append, List.countP_cons, h0]
      · simp [processExecutionBatch, retrieveBatchItems]
    · refine ⟨fun h => by simp at h, ?_, fun h => ?_⟩
      · simp [processExecutionBatch, retrieveBatchItems, hst, countDownloads]
      · rw [show processExecutionBatch ⟨bid, st, false⟩ w1 = (st, [], ⟨bid, st, false⟩)
            from by simp [processExecutionBatch, retrieveBatchItems, hst]] at h
        exact absurd h hst

/-- C2 (witness): a concrete already-retrieved batch. -/
theorem c2_witness :
    processExecutionBatch ⟨"b1", "completed", true⟩ ["f1"] =
      ("already_retrieved", [], (⟨"b1", "completed", true⟩ : BatchM)) :=
  (c2_retrieval_idempotent ⟨"b1", "completed", true⟩ ["f1"] []).1 rfl

/-- A fold of max never goes below its floor. -/
theorem le_foldlMax (l : List Nat) (s : Nat) : s ≤ l.foldl max s := by
  induction l generalizing s with
  | nil => exact Nat.le_refl s
  | cons a l ih => exact Nat.le_trans (Nat.le_max_left s a) (ih (max s a))

/-- A fold of max stays below any common bound. -/
theorem foldlMax_le (l : List Nat) (s k : Nat) (hs : s ≤ k) (h : ∀ j ∈ l, j ≤ k) :
    l.foldl max s ≤ k := by
  induction l generalizing s with
  | nil => exact hs
  | cons a l ih =>
    exact ih (max s a) (Nat.max_le.mpr ⟨hs, h a (by simp)⟩) (fun j hj => h j (by simp [hj]))

/-- A fold of max dominates every member. -/
theorem mem_le_foldlMax (l : List Nat) (s k : Nat) : k ∈ l → k ≤ l.foldl max s := by
  induction l generalizing s with
  | nil => intro hk; cases hk
  | cons a l ih =>
    intro hk
    rcases List.mem_cons.mp hk with h | h
    · subst h
      exact Nat.le_trans (Nat.le_max_right s k) (le_foldlMax l (max s k))
    · exact ih (max s a) h

/-- C8: create_next_batch_dir follows the max-plus-one rule: batch_1 when no
subdirectory name parses as batch_(digits), and batch_(k+1) when k is the greatest
parsed number; gaps play no role since only the maximum matters. -/
theorem c8_next_batch_max_rule (dirs : List String) :
    (dirs.filterMap parseBatchNum = [] → createNextBatchDir dirs = "batch_1") ∧
    (∀ k, k ∈ dirs.filterMap parseBatchNum →
      (∀ j ∈ dirs.filterMap parseBatchNum, j ≤ k) →
      createNextBatchDir dirs = "batch_" ++ toString (k + 1)) := by
  constructor
  · intro h
    simp [createNextBatchDir, h]
  · intro k hk hb
    have hmax : (dirs.filterMap parseBatchNum).foldl max 0 = k :=
      Nat.le_antisymm (foldlMax_le _ 0 k (Nat.zero_le k) hb) (mem_le_foldlMax _ 0 k hk)
    rcases hnil : dirs.filterMap parseBatchNum with _ | ⟨a, t⟩
    · rw [hnil] at hk
      cases hk
    · rw [hnil] at hmax
      simp only [createNextBatchDir, hnil]
      rw [hmax]

/-- C8 (witness): with batch_1 and batch_3 present (a gap and two non-matching
names), the next directory is batch_4. -/
theorem c8_witness :
    (3 ∈ (["batch_1", "batch_3", "notes", "batch_x"].filterMap parseBatchNum) ∧
     ∀ j ∈ (["batch_1", "batch_3", "notes", "batch_x"].filterMap parseBatchNum), j ≤ 3) ∧
    createNextBatchDir ["batch_1", "batch_3", "notes", "batch_x"] = "batch_4" :=
  ⟨⟨by decide, by decide⟩,
   (c8_next_batch_max_rule ["batch_1", "batch_3", "notes", "batch_x"]).2 3
     (by decide) (by decide)⟩

/-- The accumulating union of the scan equals the floor joined with the union of the
metadata key sets. -/
theorem foldl_union_eq (bs : List BatchDirM) (acc : Finset String) :
    bs.foldl (fun a b => match b.origKeys with | some ks => a ∪ ks.toFinset | none => a) acc
      = acc ∪ (bs.filterMap (fun b => b.origKeys)).foldr
          (fun ks a => ks.toFinset ∪ a) ∅ := by
  induction bs generalizing acc with
  | nil => simp
  | cons b bs ih =>
    cases hb : b.origKeys with
    | none => simp [List.foldl_cons, hb, ih]
    | some ks => simp [List.foldl_cons, hb, ih, Finset.union_assoc]

/-- C9: get_processed_item_ids returns the manifest set whenever the key is present
and otherwise the union of the original_texts keys over the batch subdirectories;
when the manifest records exactly that union, the two paths agree. -/
theorem c9_dual_path (d : ExecDirM) :
    (∀ l, d.manifest = some (some l) → getProcessedItemIds d = l.toFinset) ∧
    ((∀ l, d.manifest ≠ some (some l)) → getProcessedItemIds d = specScanUnion d) ∧
    (∀ l, d.manifest = some (some l) → l.toFinset = specScanUnion d →
      getProcessedItemIds d = specScanUnion d) := by
  obtain ⟨mf, bds⟩ := d
  refine ⟨fun l hl => ?_, fun h => ?_, fun l hl he => ?_⟩
  · simp only at hl
    subst hl
    simp [getProcessedItemIds]
  · match mf with
    | none =>
      simp only [getProcessedItemIds, specScanUnion]
      rw [foldl_union_eq]
      simp
    | some none =>
      simp only [getProcessedItemIds, specScanUnion]
      rw [foldl_union_eq]
      simp
    | some (some l) => exact absurd rfl (h l)
  · simp only at hl
    subst hl
    simpa [getProcessedItemIds] using he

/-- C9 (witness): a concrete execution directory whose manifest records exactly the
batch-scan union; the fast path and the degraded path agree on it. -/
theorem c9_witness :
    (execW.manifest = some (some ["a", "b"]) ∧
     (["a", "b"] : List String).toFinset = specScanUnion execW) ∧
    getProcessedItemIds execW = specScanUnion execW :=
  ⟨⟨rfl, by decide⟩, (c9_dual_path execW).2.2 ["a", "b"] rfl (by decide)⟩


/-- C7: for a well-formed output line whose custom_id is a known string and whose
extracted model content is a string, the content-parsing step never raises: the line
produces exactly one per-item write holding the parsed or wrapped content, and
whenever json.loads fails on the selected string the written content is exactly the
raw_output wrapper around the original text. -/
theorem c7_content_parse_never_raises (jl : String → Option Jv) (keys : List String)
    (v : Jv) (cid cs : String)
    (h1 : lineCustomId v = Except.ok (some (Jv.jstr cid)))
    (h2 : rawContent v = Except.ok (Jv.jstr cs))
    (h3 : cid ∈ keys) :
    processLine jl keys v =
      Except.ok (some (cid, resultFileName cid, parsedContent jl cs)) ∧
    (jl (selectedJsonString cs) = none →
      parsedContent jl cs = Jv.jobj [("raw_output", Jv.jstr cs)]) := by
  constructor
  · simp only [processLine, h1, h2]
    rw [if_pos h3]
  · intro hjl
    by_cases hf : fencedPresent cs = true
    · simp [selectedJsonString, hf] at hjl
      simp [parsedContent, hf, hjl]
    · simp [selectedJsonString, hf] at hjl
      simp [parsedContent, hf, hjl]

/-- C7 (witness): the concrete well-formed line with custom_id "a" and non-JSON
content "hello" is materialized as the raw_output wrapper. -/
theorem c7_witness :
    (lineCustomId goodLineVal = Except.ok (some (Jv.jstr "a")) ∧
     rawContent goodLineVal = Except.ok (Jv.jstr "hello") ∧
     "a" ∈ ["a"] ∧ jl0 (selectedJsonString "hello") = none) ∧
    (processLine jl0 ["a"] goodLineVal =
       Except.ok (some ("a", resultFileName "a", parsedContent jl0 "hello")) ∧
     (jl0 (selectedJsonString "hello") = none →
       parsedContent jl0 "hello" = Jv.jobj [("raw_output", Jv.jstr "hello")])) :=
  ⟨⟨rfl, rfl, by decide, rfl⟩,
   c7_content_parse_never_raises jl0 ["a"] goodLineVal "a" "hello" rfl rfl (by decide)⟩

/-- C6 (counterexample): with a malformed first line, the well-formed line after it
is not materialized (no write at all), although the same line alone produces its
write; one malformed line aborts the remaining lines. -/
theorem c6_counterexample :
    (processBatchResults jl0 ["not json", goodLine] ["a"]).1 = [] ∧
    (processBatchResults jl0 [goodLine] ["a"]).1 =
      [("result_a.json", Jv.jobj [("raw_output", Jv.jstr "hello")])] :=
  ⟨rfl, rfl⟩

/-- C6 (amended): the result loop is wrapped in a single whole-loop try/except, so
the first erroneous line (malformed JSON or a body exception) aborts the remaining
lines: exactly the writes of the error-free prefix are performed, and the returned
results list collapses to the empty list. -/
theorem c6_malformed_line_aborts (jl : String → Option Jv) (keys : List String)
    (pre : List String) (bad : String) (rest : List String)
    (hpre : ∀ ln ∈ pre, (lineStep jl keys ln).isSome = true)
    (hbad : lineStep jl keys bad = none) :
    processLinesAux jl keys (pre ++ bad :: rest) =
      (pre.filterMap (fun ln => lineWrite jl keys ln), none) ∧
    processBatchResults jl (pre ++ bad :: rest) keys =
      (pre.filterMap (fun ln => lineWrite jl keys ln), []) := by
  have main : processLinesAux jl keys (pre ++ bad :: rest) =
      (pre.filterMap (fun ln => lineWrite jl keys ln), none) := by
    induction pre with
    | nil =>
      simp only [List.nil_append, List.filterMap_nil]
      simp [processLinesAux, hbad]
    | cons ln pre ih =>
      have h1 := hpre ln (by simp)
      have ih2 := ih (fun x hx => hpre x (by simp [hx]))
      cases hstep : lineStep jl keys ln with
      | none => rw [hstep] at h1; simp at h1
      | some r =>
        cases r with
        | none =>
          simp only [List.cons_append, processLinesAux, hstep, List.append_eq]
          rw [ih2]
          simp [List.filterMap_cons, lineWrite, hstep]
        | some w =>
          obtain ⟨cid, fname, content⟩ := w
          simp only [List.cons_append, processLinesAux, hstep, List.append_eq]
          rw [ih2]
          simp [List.filterMap_cons, lineWrite, hstep]
  exact ⟨main, by simp [processBatchResults, main]⟩

/-- C6 (witness): one good line, then a malformed one, then another good line; only
the first line's file is written and the results list is empty. -/
theorem c6_witness :
    ((∀ ln ∈ [goodLine], (lineStep jl0 ["a"] ln).isSome = true) ∧
     lineStep jl0 ["a"] "not json" = none) ∧
    processLinesAux jl0 ["a"] ([goodLine] ++ "not json" :: [goodLine]) =
      ([goodLine].filterMap (fun ln => lineWrite jl0 ["a"] ln), none) ∧
    processBatchResults jl0 ([goodLine] ++ "not json" :: [goodLine]) ["a"] =
      ([goodLine].filterMap (fun ln => lineWrite jl0 ["a"] ln), []) :=
  ⟨⟨by intro ln h; rw [List.mem_singleton] at h; subst h; decide, rfl⟩,
   c6_malformed_line_aborts jl0 ["a"] [goodLine] "not json" [goodLine]
     (by intro ln h; rw [List.mem_singleton] at h; subst h; decide) rfl⟩

/-- Mapping first components over a filtered zip gives the filter of the first list,
when the lists have equal length. -/
theorem zip_filter_map_fst {α β : Type} (p : α → Bool) :
    ∀ (a : List α) (b : List β), a.length = b.length →
      (((a.zip b).filter (fun q => p q.1)).map (fun q => q.1)) = a.filter p := by
  intro a
  induction a with
  | nil => intro b _; rfl
  | cons x a ih =>
    intro b hb
    cases b with
    | nil => simp at hb
    | cons y b =>
      have hb2 : a.length = b.length := by simpa using hb
      by_cases hp : p x = true <;>
        simp [List.zip_cons_cons, List.filter_cons, hp, ih b hb2]

/-- Mapping second components over a zip of equal-length lists recovers the second. -/
theorem zip_map_snd_self {α β : Type} :
    ∀ (a : List α) (b : List β), a.length = b.length →
      (a.zip b).map (fun q => q.2) = b := by
  intro a
  induction a with
  | nil =>
    intro b hb
    cases b with
    | nil => rfl
    | cons y b => simp at hb
  | cons x a ih =>
    intro b hb
    cases b with
    | nil => simp at hb
    | cons y b =>
      have hb2 : a.length = b.length := by simpa using hb
      simp [List.zip_cons_cons, ih b hb2]

/-- C5 (counterexample): with texts [ta, tb, tc], ids [a, b, c], batch_size 1 and
processed ids [a], the filtered list of unprocessed ids is [b, c] (longer than
batch_size) and the claim says exactly [b] is submitted; the code instead truncates
first, filters the truncated prefix [a] to nothing and returns skipped. -/
theorem c5_counterexample :
    submitBatchSlice ["ta", "tb", "tc"] ["a", "b", "c"] 1 ["a"] = SubmitOutcome.skipped ∧
    ((["a", "b", "c"] : List String).filter
      (fun i => decide (i ∉ (["a"] : List String)))).length > 1 ∧
    ((["a", "b", "c"] : List String).filter
      (fun i => decide (i ∉ (["a"] : List String)))).take 1 = ["b"] :=
  ⟨by decide, by decide, by decide⟩

/-- C5 (amended): in submit_batch the size cap precedes the deduplication filter:
whatever is submitted is exactly the processed-id filter of the first batch_size
input items, the call returns skipped precisely when processed ids exist and the
nonempty truncated prefix filters to nothing (even if unprocessed items remain
beyond the cap), and nonempty input never returns failed. -/
theorem c5_cap_before_filter (texts ids : List String) (bs : Nat)
    (processed : List String)
    (hlen : ids.length = texts.length) (hne : texts ≠ []) :
    (∀ sids stexts,
      submitBatchSlice texts ids bs processed = SubmitOutcome.submitted sids stexts →
        sids = (ids.take bs).filter (fun i => decide (i ∉ processed)) ∧
        stexts = (((ids.take bs).zip (texts.take bs)).filter
          (fun p => decide (p.1 ∉ processed))).map (fun p => p.2)) ∧
    (submitBatchSlice texts ids bs processed = SubmitOutcome.skipped ↔
      processed ≠ [] ∧ ids.take bs ≠ [] ∧
      (ids.take bs).filter (fun i => decide (i ∉ processed)) = []) ∧
    submitBatchSlice texts ids bs processed ≠ SubmitOutcome.failed := by
  have hii : (if texts.length > bs then ids.take bs else ids) = ids.take bs := by
    by_cases h : texts.length > bs
    · rw [if_pos h]
    · rw [if_neg h]
      exact (List.take_of_length_le (by omega)).symm
  have htt : (if texts.length > bs then texts.take bs else texts) = texts.take bs := by
    by_cases h : texts.length > bs
    · rw [if_pos h]
    · rw [if_neg h]
      exact (List.take_of_length_le (by omega)).symm
  have hlen2 : (ids.take bs).length = (texts.take bs).length := by
    simp [List.length_take, hlen]
  have hfst := zip_filter_map_fst (fun i => decide (i ∉ processed))
    (ids.take bs) (texts.take bs) hlen2
  simp only [] at hfst
  simp only [submitBatchSlice, if_neg hne, hii, htt]
  by_cases hg : processed ≠ [] ∧ ids.take bs ≠ []
  · rw [if_pos hg]
    by_cases hk : ((ids.take bs).zip (texts.take bs)).filter
        (fun p => decide (p.1 ∉ processed)) = []
    · rw [if_pos hk]
      refine ⟨fun sids stexts h => (by cases h), ?_, (by intro h; cases h)⟩
      constructor
      · intro _
        refine ⟨hg.1, hg.2, ?_⟩
        rw [← hfst, hk]
        rfl
      · intro _
        rfl
    · rw [if_neg hk]
      refine ⟨fun sids stexts h => ?_, ?_, (by intro h; cases h)⟩
      · cases h
        exact ⟨hfst, rfl⟩
      · constructor
        · intro h; cases h
        · rintro ⟨-, -, hfil⟩
          exfalso
          apply hk
          rw [hfil] at hfst
          exact List.map_eq_nil_iff.mp hfst
  · rw [if_neg hg]
    have hids : ids ≠ [] := by
      intro h
      apply hne
      cases texts with
      | nil => rfl
      | cons t ts => rw [h] at hlen; simp at hlen
    refine ⟨fun sids stexts h => ?_, ?_, (by intro h; cases h)⟩
    · cases h
      have hsplit : processed = [] ∨ ids.take bs = [] := by
        by_contra hcon
        push_neg at hcon
        exact hg ⟨hcon.1, hcon.2⟩
      rcases hsplit with hp | hi
      · subst hp
        have hftrue : ((ids.take bs).zip (texts.take bs)).filter
            (fun p => decide (p.1 ∉ ([] : List String)))
            = (ids.take bs).zip (texts.take bs) :=
          List.filter_eq_self.mpr (fun a _ => by simp)
        have hftrue2 : (ids.take bs).filter
            (fun i => decide (i ∉ ([] : List String))) = ids.take bs :=
          List.filter_eq_self.mpr (fun a _ => by simp)
        rw [hftrue, hftrue2, zip_map_snd_self _ _ hlen2]
        exact ⟨rfl, rfl⟩
      · have hbs : bs = 0 := by
          cases bs with
          | zero => rfl
          | succ n =>
            exfalso
            cases ids with
            | nil => exact hids rfl
            | cons x xs => simp at hi
        subst hbs
        simp
    · constructor
      · intro h; cases h
      · rintro ⟨hp, hi, -⟩
        exact absurd ⟨hp, hi⟩ hg

/-- C5 (witness): two items of which the first is already processed, batch size
larger than the input: the submitted batch is exactly the filtered prefix. -/
theorem c5_witness :
    (["b"] : List String) =
      ((["a", "b"] : List String).take 5).filter
        (fun i => decide (i ∉ (["a"] : List String))) ∧
    (["t2"] : List String) =
      ((((["a", "b"] : List String).take 5).zip
          ((["t1", "t2"] : List String).take 5)).filter
        (fun p => decide (p.1 ∉ (["a"] : List String)))).map (fun p => p.2) :=
  (c5_cap_before_filter ["t1", "t2"] ["a", "b"] 5 ["a"] rfl (by decide)).1
    ["b"] ["t2"] (by decide)


/-- Unfolding of one step of the append-if-absent union. -/
theorem registerItems_cons (p : List String) (a : String) (ids : List String) :
    registerItems p (a :: ids) = registerItems (if a ∈ p then p else p ++ [a]) ids := rfl

/-- Membership in the union is membership in either side. -/
theorem mem_registerItems (p ids : List String) (i : String) :
    i ∈ registerItems p ids ↔ i ∈ p ∨ i ∈ ids := by
  induction ids generalizing p with
  | nil => simp [registerItems]
  | cons a ids ih =>
    rw [registerItems_cons]
    by_cases ha : a ∈ p
    · rw [if_pos ha, ih]
      simp only [List.mem_cons]
      constructor
      · rintro (h | h)
        · exact Or.inl h
        · exact Or.inr (Or.inr h)
      · rintro (h | h | h)
        · exact Or.inl h
        · exact Or.inl (h ▸ ha)
        · exact Or.inr h
    · rw [if_neg ha, ih]
      simp only [List.mem_append, List.mem_cons, List.mem_singleton]
      tauto

/-- The union of a duplicate-free list with anything stays duplicate-free. -/
theorem nodup_registerItems (p ids : List String) (h : p.Nodup) :
    (registerItems p ids).Nodup := by
  induction ids generalizing p with
  | nil => exact h
  | cons a ids ih =>
    rw [registerItems_cons]
    by_cases ha : a ∈ p
    · rw [if_pos ha]
      exact ih p h
    · rw [if_neg ha]
      refine ih _ ?_
      simp [List.nodup_append, h, ha]

/-- Registering only already-present ids changes nothing. -/
theorem registerItems_eq_self (p ids : List String) (h : ∀ i ∈ ids, i ∈ p) :
    registerItems p ids = p := by
  induction ids with
  | nil => rfl
  | cons a ids ih =>
    rw [registerItems_cons, if_pos (h a (by simp))]
    exact ih (fun i hi => h i (List.mem_cons_of_mem a hi))

/-- The union is idempotent: registering the same id list twice equals once. -/
theorem registerItems_idem (p ids : List String) :
    registerItems (registerItems p ids) ids = registerItems p ids :=
  registerItems_eq_self _ _ (fun i hi => (mem_registerItems p ids i).mpr (Or.inr hi))

/-- The original_texts key set has the same members as the filtered id list. -/
theorem mem_dedupKeys (ids : List String) (i : String) :
    i ∈ dedupKeys ids ↔ i ∈ ids := by
  unfold dedupKeys
  rw [mem_registerItems]
  simp

/-- One submission either leaves the state unchanged (failed or skipped) or appends
exactly one batch of filtered ids, none of which was processed before, and unions
those ids into the processed list. -/
theorem submitStep_cases (bs : Nat) (s : ExecState) (itemIds : List String) :
    submitStep bs s itemIds = s ∨
    ∃ filtered : List String, filtered ≠ [] ∧ (∀ i ∈ filtered, i ∉ s.processed) ∧
      submitStep bs s itemIds =
        ⟨registerItems s.processed filtered, s.batches ++ [dedupKeys filtered]⟩ := by
  simp only [submitStep]
  by_cases hg : s.processed ≠ [] ∧
      (if itemIds.length > bs then itemIds.take bs else itemIds) ≠ []
  · rw [if_pos hg]
    by_cases hf : ((if itemIds.length > bs then itemIds.take bs else itemIds).filter
        (fun i => decide (i ∉ s.processed))) = []
    · rw [if_pos hf]
      exact Or.inl rfl
    · rw [if_neg hf]
      refine Or.inr ⟨_, hf, ?_, rfl⟩
      intro i hi
      have h2 := (List.mem_filter.mp hi).2
      simpa using h2
  · rw [if_neg hg]
    by_cases hf : (if itemIds.length > bs then itemIds.take bs else itemIds) = []
    · rw [if_pos hf]
      exact Or.inl rfl
    · rw [if_neg hf]
      have hp : s.processed = [] := by
        by_contra hne
        exact hg ⟨hne, hf⟩
      refine Or.inr ⟨_, hf, ?_, rfl⟩
      intro i _
      simp [hp]

/-- C1: in every reachable execution state, no item id belongs to the original_texts
key sets of two different batches, the processed_item_ids list stays duplicate-free,
every batched id is recorded as processed, and re-registering any id list a second
time adds nothing. -/
theorem c1_no_id_in_two_batches (s : ExecState) (h : Reachable s) :
    s.batches.Pairwise (fun b1 b2 => ∀ i ∈ b1, i ∉ b2) ∧
    s.processed.Nodup ∧
    (∀ b ∈ s.batches, ∀ i ∈ b, i ∈ s.processed) ∧
    (∀ ids, registerItems (registerItems s.processed ids) ids =
      registerItems s.processed ids) := by
  induction h with
  | init =>
    exact ⟨List.Pairwise.nil, List.nodup_nil, (by intro b hb; cases hb),
      fun ids => registerItems_idem _ _⟩
  | step bs itemIds s h ih =>
    obtain ⟨hpw, hnd, hsub, -⟩ := ih
    rcases submitStep_cases bs s itemIds with heq | ⟨filtered, hne2, hdisj, heq⟩
    · rw [heq]
      exact ⟨hpw, hnd, hsub, fun ids => registerItems_idem _ _⟩
    · rw [heq]
      refine ⟨?_, nodup_registerItems _ _ hnd, ?_, fun ids => registerItems_idem _ _⟩
      · rw [List.pairwise_append]
        refine ⟨hpw, List.pairwise_singleton _ _, ?_⟩
        intro b hb nb hnb i hib
        rw [List.mem_singleton] at hnb
        subst hnb
        intro hin
        exact hdisj i ((mem_dedupKeys _ _).mp hin) (hsub b hb i hib)
      · intro b hb i hib
        rcases List.mem_append.mp hb with hbo | hbn
        · exact (mem_registerItems _ _ _).mpr (Or.inl (hsub b hbo i hib))
        · rw [List.mem_singleton] at hbn
          subst hbn
          exact (mem_registerItems _ _ _).mpr (Or.inr ((mem_dedupKeys _ _).mp hib))

/-- C1 (witness): submitting the id set [a, b] twice into a fresh execution; the
invariant holds at the resulting state (whose second submission was skipped). -/
theorem c1_witness :
    ((submitStep 10 (submitStep 10 ⟨[], []⟩ ["a", "b"]) ["a", "b"]).batches.Pairwise
      (fun b1 b2 => ∀ i ∈ b1, i ∉ b2) ∧
     (submitStep 10 (submitStep 10 ⟨[], []⟩ ["a", "b"]) ["a", "b"]).processed.Nodup ∧
     (∀ b ∈ (submitStep 10 (submitStep 10 ⟨[], []⟩ ["a", "b"]) ["a", "b"]).batches,
       ∀ i ∈ b, i ∈ (submitStep 10 (submitStep 10 ⟨[], []⟩ ["a", "b"]) ["a", "b"]).processed) ∧
     (∀ ids, registerItems
        (registerItems (submitStep 10 (submitStep 10 ⟨[], []⟩ ["a", "b"]) ["a", "b"]).processed ids) ids =
      registerItems (submitStep 10 (submitStep 10 ⟨[], []⟩ ["a", "b"]) ["a", "b"]).processed ids)) :=
  c1_no_id_in_two_batches _
    (Reachable.step 10 ["a", "b"] (submitStep 10 ⟨[], []⟩ ["a", "b"])
      (Reachable.step 10 ["a", "b"] ⟨[], []⟩ Reachable.init))


/-- The candidate loop of find_matching_entity equals the strict-improvement scan
over the scored containment candidates. -/
theorem fuzzyScan_eq_runBest (nn : String) (cands : List Entity)
    (acc : Option String × ℚ) :
    fuzzyScan nn cands acc = runBest (scoredOf nn cands) acc := by
  induction cands generalizing acc with
  | nil => rfl
  | cons e rest ih =>
    simp only [fuzzyScan, scoredOf, List.filter_cons]
    by_cases hc : containOK nn (normalizeEntityName e.name) = true
    · simp only [hc, if_true, List.map_cons, runBest]
      by_cases hlt : acc.2 < calcSimilarity nn (normalizeEntityName e.name)
      · rw [if_pos hlt, if_pos hlt, ih]
        rfl
      · rw [if_neg hlt, if_neg hlt, ih]
        rfl
    · simp only [hc, if_false, Bool.false_eq_true]
      rw [ih]
      rfl

/-- The floor never exceeds the running maximum. -/
theorem le_maxFold (l : List (String × ℚ)) (s : ℚ) : s ≤ maxFold l s := by
  induction l generalizing s with
  | nil => exact le_refl s
  | cons p l ih => exact le_trans (le_max_left s p.2) (ih (max s p.2))

/-- The second component of the scan is the running maximum of the scores. -/
theorem runBest_snd (l : List (String × ℚ)) (b : Option String) (s : ℚ) :
    (runBest l (b, s)).2 = maxFold l s := by
  induction l generalizing b s with
  | nil => rfl
  | cons p l ih =>
    simp only [runBest, maxFold]
    by_cases h : s < p.2
    · rw [if_pos h, ih, max_eq_right (le_of_lt h)]
    · rw [if_neg h, ih, max_eq_left (not_lt.mp h)]

/-- When no score strictly improves on the floor, the carried id is unchanged. -/
theorem runBest_fst_stay (l : List (String × ℚ)) (b : Option String) (s : ℚ)
    (h : maxFold l s = s) : (runBest l (b, s)).1 = b := by
  induction l generalizing b s with
  | nil => rfl
  | cons p l ih =>
    simp only [maxFold] at h
    simp only [runBest]
    by_cases hlt : s < p.2
    · exfalso
      have h1 : max s p.2 ≤ maxFold l (max s p.2) := le_maxFold l (max s p.2)
      rw [h] at h1
      exact absurd (le_trans (le_max_right s p.2) h1) (not_le.mpr hlt)
    · rw [if_neg hlt]
      apply ih
      rwa [max_eq_left (not_lt.mp hlt)] at h

/-- When some score strictly improves on the floor, the scan returns the first
candidate whose score equals the final maximum. -/
theorem runBest_fst_find (l : List (String × ℚ)) (b : Option String) (s : ℚ)
    (h : s < maxFold l s) :
    (runBest l (b, s)).1 =
      (l.find? (fun p => decide (p.2 = maxFold l s))).map Prod.fst := by
  induction l generalizing b s with
  | nil => exact absurd h (lt_irrefl s)
  | cons p l ih =>
    simp only [maxFold] at h ⊢
    simp only [runBest]
    by_cases hlt : s < p.2
    · rw [if_pos hlt]
      have hmx : maxFold l (max s p.2) = maxFold l p.2 := by
        rw [max_eq_right (le_of_lt hlt)]
      rw [hmx] at h
      simp only [hmx]
      rcases lt_or_eq_of_le (le_maxFold l p.2) with h2 | h2
      · rw [ih (some p.1) p.2 h2]
        have hne : (decide (p.2 = maxFold l p.2)) = false :=
          decide_eq_false (ne_of_lt h2)
        rw [List.find?_cons, hne]
      · rw [runBest_fst_stay l (some p.1) p.2 h2.symm]
        have hyes : (decide (p.2 = maxFold l p.2)) = true := decide_eq_true h2
        rw [List.find?_cons, hyes]
        rfl
    · rw [if_neg hlt]
      have hmx : maxFold l (max s p.2) = maxFold l s := by
        rw [max_eq_left (not_lt.mp hlt)]
      rw [hmx] at h
      simp only [hmx]
      rw [ih b s h]
      have hne : (decide (p.2 = maxFold l s)) = false :=
        decide_eq_false (ne_of_lt (lt_of_le_of_lt (not_lt.mp hlt) h))
      rw [List.find?_cons, hne]

/-- A running maximum strictly above the floor is attained by some list element. -/
theorem maxFold_attained (l : List (String × ℚ)) (s : ℚ) (h : s < maxFold l s) :
    ∃ p ∈ l, p.2 = maxFold l s := by
  induction l generalizing s with
  | nil => exact absurd h (lt_irrefl s)
  | cons p l ih =>
    simp only [maxFold] at h ⊢
    rcases lt_or_eq_of_le (le_maxFold l (max s p.2)) with h2 | h2
    · obtain ⟨q, hq, he⟩ := ih (max s p.2) h2
      exact ⟨q, List.mem_cons_of_mem _ hq, he⟩
    · have hmax : max s p.2 = p.2 := by
        rcases max_choice s p.2 with h3 | h3
        · exfalso
          rw [← h2, h3] at h
          exact lt_irrefl s h
        · exact h3
      refine ⟨p, List.mem_cons_self _ _, ?_⟩
      rw [← h2, hmax]

/-- Every scored candidate is the id of a stored same-type entity. -/
theorem scoredOf_mem_id (nn : String) (cands : List Entity) (q : String × ℚ)
    (hq : q ∈ scoredOf nn cands) : ∃ e ∈ cands, q.1 = e.id := by
  unfold scoredOf at hq
  obtain ⟨e, he, heq⟩ := List.mem_map.mp hq
  exact ⟨e, (List.mem_filter.mp he).1, by rw [← heq]⟩

/-- C3 (amended): provided the candidate name is non-empty and every stored entity
id is non-empty, find_matching_entity decides exactly as the claim describes: the
first exact raw (name, type) row wins immediately; otherwise, for normalized names
longer than two characters, the same-type containment candidate with the highest
Jaccard similarity is returned exactly when that best similarity strictly exceeds
one half, and no match is returned in every other case. -/
theorem c3_find_matching_entity (db : List Entity) (name ty : String)
    (hname : name ≠ "") (hids : ∀ e ∈ db, e.id ≠ "") :
    findMatchingEntity db name ty = specFindMatch db name ty := by
  unfold findMatchingEntity specFindMatch
  rw [if_neg hname]
  cases hfind : db.find? (fun e => e.name == name && e.ty == ty) with
  | some e => rfl
  | none =>
    by_cases hlen : (normalizeEntityName name).length > 2
    · rw [if_pos hlen, if_pos hlen, fuzzyScan_eq_runBest]
      cases hrb : runBest (scoredOf (normalizeEntityName name)
          (db.filter (fun e => e.ty == ty))) (none, 0) with
      | mk b1 b2 =>
        have hb2 : b2 = maxFold (scoredOf (normalizeEntityName name)
            (db.filter (fun e => e.ty == ty))) 0 := by
          have hx := runBest_snd (scoredOf (normalizeEntityName name)
            (db.filter (fun e => e.ty == ty))) none 0
          rw [hrb] at hx
          exact hx
        by_cases hgt : (1 : ℚ)/2 < maxFold (scoredOf (normalizeEntityName name)
            (db.filter (fun e => e.ty == ty))) 0
        · rw [if_pos hgt]
          have h0 : (0 : ℚ) < maxFold (scoredOf (normalizeEntityName name)
              (db.filter (fun e => e.ty == ty))) 0 := lt_trans (by norm_num) hgt
          obtain ⟨q, hqmem, hqeq⟩ := maxFold_attained _ 0 h0
          have hfst := runBest_fst_find (scoredOf (normalizeEntityName name)
            (db.filter (fun e => e.ty == ty))) none 0 h0
          rw [hrb] at hfst
          cases hfq : (scoredOf (normalizeEntityName name)
              (db.filter (fun e => e.ty == ty))).find?
              (fun p => decide (p.2 = maxFold (scoredOf (normalizeEntityName name)
                (db.filter (fun e => e.ty == ty))) 0)) with
          | none =>
            exfalso
            rw [List.find?_eq_none] at hfq
            exact hfq q hqmem (decide_eq_true hqeq)
          | some q0 =>
            rw [hfq] at hfst
            have hb1 : b1 = some q0.1 := by simpa using hfst
            subst hb1
            obtain ⟨e, he, hid⟩ := scoredOf_mem_id _ _ q0
              (List.mem_of_find?_eq_some hfq)
            have hq0 : q0.1 ≠ "" := by
              rw [hid]
              exact hids e (List.mem_filter.mp he).1
            show (if q0.1 ≠ "" ∧ (1 : ℚ)/2 < b2 then some q0.1 else none)
              = (some q0).map Prod.fst
            rw [if_pos ⟨hq0, by rw [hb2]; exact hgt⟩]
            rfl
        · rw [if_neg hgt]
          cases b1 with
          | none => rfl
          | some i =>
            show (if i ≠ "" ∧ (1 : ℚ)/2 < b2 then some i else none) = none
            rw [if_neg]
            intro hcon
            rw [hb2] at hcon
            exact hgt hcon.2
    · rw [if_neg hlen, if_neg hlen]

/-- C3 (counterexample): a candidate with the empty name never matches, even when an
entity with exactly that raw (name, type) pair is stored; the code short-circuits on
the falsy name before the exact pass, against the claim. -/
theorem c3_counterexample :
    findMatchingEntity [⟨"e1", "", "Company"⟩] "" "Company" = none ∧
    specFindMatch [⟨"e1", "", "Company"⟩] "" "Company" = some "e1" :=
  ⟨rfl, rfl⟩

/-- C3 (witness): an exact raw match returns immediately on both sides. -/
theorem c3_witness :
    (("Acme Inc" : String) ≠ "" ∧
     ∀ e ∈ ([⟨"1", "Acme Inc", "Company"⟩] : List Entity), e.id ≠ "") ∧
    findMatchingEntity [⟨"1", "Acme Inc", "Company"⟩] "Acme Inc" "Company" =
      specFindMatch [⟨"1", "Acme Inc", "Company"⟩] "Acme Inc" "Company" :=
  ⟨⟨by decide, by decide⟩,
   c3_find_matching_entity [⟨"1", "Acme Inc", "Company"⟩] "Acme Inc" "Company"
     (by decide) (by decide)⟩


end FinKG

